import Mathlib

/-
Verification of the availability-profile core (src/availability/profile.py,
src/availability/sets.py, src/availability/util.py) against its
natural-language specification.

Shallow embedding conventions:
* `DiscreteSet` (an `intrangeset` over finite integer ranges) is modelled as
  `Finset Int`: the library's canonicalised range sets are extensionally sets
  of integers, `&`/`|`/`-` are `∩`/`∪`/`\`, and `quantity` (the sum of the
  lengths of the member ranges) is `Finset.card`.
* The discrete profile instantiates the comparator with `IntFloatComparator`,
  whose `math.isclose`-based `eq`/`le`/`ge` coincide with exact integer
  comparison for all values of ordinary magnitude (two distinct integers are
  only "close" when their magnitude exceeds about 1e9); the embedding uses
  exact integer comparisons, which is also what spec section 4.2 prescribes
  ("Exact: ordinary <, = (integers)") for the discrete instantiation.
* The timeline `self._avail` (a `SortedKeyList` keyed by entry time) is a
  `List ProfileEntry`; `SortedKeyList.bisect_right` is `bisectRight`,
  `SortedKeyList.add` is `insertByTime` (stable insertion after equal keys,
  which is what `bisect_right`-based insertion does on a sorted list).
* Fallible paths (Python exceptions) are `Option`/`Except` `none`/`error`.
* Python's in-place mutation of entry records is translated to producing the
  corresponding updated list; set objects are values here, which matches the
  source because every set the queries touch is cloned (`copy`) before use
  and the `spans` library returns new sets from all its operations.
-/

/-- `ProfileEntry(time, resources, num_units)` from profile.py. -/
structure ProfileEntry where
  time : Int
  resources : Finset Int
  num_units : Nat
deriving DecidableEq

/-- `DiscreteRange(lo, hi)`: the half-open integer interval `[lo, hi)`. -/
structure DiscreteRange where
  lo : Int
  hi : Int
deriving DecidableEq

/-- `TimeSlot(period, resources)`; `resources` is `None` (`⊥`) or a set. -/
structure TimeSlot where
  period : DiscreteRange
  resources : Option (Finset Int)
deriving DecidableEq

/-- The set of integers named by `DiscreteRange(lo, hi)`. -/
def rng (lo hi : Int) : Finset Int := Finset.Ico lo hi

/-- `entry.resources -= X` applied to one entry. -/
def subX (X : Finset Int) (en : ProfileEntry) : ProfileEntry :=
  ⟨en.time, en.resources \ X, en.num_units⟩

/-- `entry.num_units += 1` applied to one entry. -/
def bump (en : ProfileEntry) : ProfileEntry :=
  ⟨en.time, en.resources, en.num_units + 1⟩

/-- Timeline invariant I1: entry times strictly increase. -/
def timesSorted (l : List ProfileEntry) : Prop :=
  l.Pairwise (fun x y => x.time < y.time)

instance timesSortedDec (l : List ProfileEntry) : Decidable (timesSorted l) :=
  List.instDecidablePairwise l

/-- `SortedKeyList.bisect_right` on the timeline: the number of leading
entries whose time is `≤ t` (equal, on a sorted list, to the index of the
first entry with time `> t`). -/
def bisectRight : List ProfileEntry → Int → Nat
  | [], _ => 0
  | en :: rest, t => if t < en.time then 0 else bisectRight rest t + 1

/-- `ABCProfile._find_le`, returning the split
`(entries before the anchor, anchor, entries after the anchor)`; `none` is
Python's `(-1, None)` case (`t` precedes every entry). -/
def findLESplit : List ProfileEntry → Int → Option (List ProfileEntry × ProfileEntry × List ProfileEntry)
  | [], _ => none
  | en :: rest, t =>
    if t < en.time then none
    else
      match findLESplit rest t with
      | none => some ([], en, rest)
      | some (pre, a, suf) => some (en :: pre, a, suf)

/-- The piecewise-constant availability at instant `t`: the resource set of
the last entry with time `≤ t` (`∅` before the first entry). -/
def availAt (l : List ProfileEntry) (t : Int) : Finset Int :=
  ((l.takeWhile fun en => decide (en.time ≤ t)).getLast?).elim ∅ ProfileEntry.resources

/-- `SortedKeyList.add`: insert after all entries with time `≤ x.time`
(the stable `bisect_right` insertion point on a sorted list). -/
def insertByTime : List ProfileEntry → ProfileEntry → List ProfileEntry
  | [], x => [x]
  | y :: ys, x => if x.time < y.time then x :: y :: ys else y :: insertByTime ys x

/-- `DiscreteProfile(max_capacity)`: the initial timeline
`[(0, [0, max_capacity), 1)]` built by `ABCProfile.__init__` via
`DiscreteProfile.make_entry`. -/
def initAvail (cap : Int) : List ProfileEntry := [⟨0, rng 0 cap, 1⟩]

/-- The loop of `check_availability` over the entries after the anchor:
intersect while `e.time < end_time`, failing to `None` as soon as the running
intersection's quantity drops below `quantity`.  (The quantity is never
checked when the loop performs no intersection.) -/
def caLoop (quantity endTime : Int) (resources : Finset Int) : List ProfileEntry → Option (Finset Int)
  | [] => some resources
  | en :: rest =>
    if endTime ≤ en.time then some resources
    else
      let r2 := resources ∩ en.resources
      if (r2.card : Int) < quantity then none
      else caLoop quantity endTime r2 rest

/-- `ABCProfile.check_availability(quantity, start_time, duration)`.
The outer `none` is the `AttributeError` Python raises when `_find_le`
returns `(-1, None)` (query before the first entry). -/
def check_availability (avail : List ProfileEntry) (quantity startTime duration : Int) : Option TimeSlot :=
  match findLESplit avail startTime with
  | none => none
  | some (_, a, suf) =>
    some ⟨⟨startTime, startTime + duration⟩, caLoop quantity (startTime + duration) a.resources suf⟩

/-- The anchor list `self._avail[index:]` scanned by `find_start_time`
(and the outer loop of `scheduling_options`): when `_find_le` returns
`-1`, Python's negative slice `[-1:]` yields just the last entry. -/
def anchors (avail : List ProfileEntry) (r : Int) : List ProfileEntry :=
  let k := bisectRight avail r
  if k = 0 then avail.getLast?.toList else avail.drop (k - 1)

/-- Inner loop of `find_start_time`: intersect successive entries while the
running quantity stays `≥ quantity`, breaking at the first entry whose time
is `≥ posEnd`. -/
def fstInner (quantity posEnd : Int) (intersect : Finset Int) : List ProfileEntry → Finset Int
  | [] => intersect
  | en :: rest =>
    if ¬ (quantity ≤ (intersect.card : Int)) then intersect
    else if posEnd ≤ en.time then intersect
    else fstInner quantity posEnd (intersect ∩ en.resources) rest

/-- Outer loop of `find_start_time` over the anchors: the slot starts at
`anchor.time` (the source has no `max(ready_time, anchor.time)`). -/
def fstLoop (quantity duration : Int) : List ProfileEntry → Option TimeSlot
  | [] => none
  | a :: rest =>
    let inter := fstInner quantity (a.time + duration) a.resources rest
    if quantity ≤ (inter.card : Int) then
      some ⟨⟨a.time, a.time + duration⟩, some inter⟩
    else fstLoop quantity duration rest

/-- `ABCProfile.find_start_time(quantity, ready_time, duration)`. -/
def find_start_time (avail : List ProfileEntry) (quantity readyTime duration : Int) : Option TimeSlot :=
  fstLoop quantity duration (anchors avail readyTime)

/-- The full-window intersection the specification describes for an anchor:
the anchor's set intersected with every following entry whose time is
`< anchor.time + duration`. -/
def windowSet (duration : Int) (a : ProfileEntry) (followers : List ProfileEntry) : Finset Int :=
  (followers.takeWhile fun en => decide (en.time < a.time + duration)).foldl
    (fun acc en => acc ∩ en.resources) a.resources

/-- Specification-side scan: the first anchor whose full-window intersection
has measure `≥ quantity`, together with that intersection. -/
def firstFit (quantity duration : Int) : List ProfileEntry → Option (Int × Finset Int)
  | [] => none
  | a :: rest =>
    if quantity ≤ ((windowSet duration a rest).card : Int) then
      some (a.time, windowSet duration a rest)
    else firstFit quantity duration rest

/-- The `for next_entry in sub_list` loop of `allocate_slot` together with its
post-loop boundary handling.  `c` is the entry `last_checked` aliases (already
placed in the timeline right before `rest`); advancing past `c` subtracts the
allocated set from it; at the end the entry at `endTime` is either refcount
bumped (when `last_checked.time == end_time`) or freshly inserted with
`last_checked`'s pre-subtraction resources, after which `last_checked` gets
the subtraction. -/
def allocLoop (X : Finset Int) (endTime : Int) : List ProfileEntry → ProfileEntry → List ProfileEntry
  | [], c =>
    if c.time = endTime then [bump c]
    else [subX X c, ⟨endTime, c.resources, 1⟩]
  | n :: rest, c =>
    if n.time ≤ endTime then subX X c :: allocLoop X endTime rest n
    else if c.time = endTime then bump c :: n :: rest
    else subX X c :: ⟨endTime, c.resources, 1⟩ :: n :: rest

/-- `ABCProfile.allocate_slot(resources, start_time, end_time)`.
`none` is the `AttributeError` raised (before any mutation) when `_find_le`
finds no anchor.  When the anchor's time equals `start_time` its refcount is
bumped and the scan starts at the anchor itself; otherwise a fresh entry
`(start_time, anchor.resources, 1)` is inserted after the anchor and the scan
starts there.  The first loop iteration always sees that time-`start_time`
entry; its subtraction lands on the detached `last_checked` copy and is lost,
exactly as in the source.  When `end_time < start_time` the loop breaks at
once and the post-loop `add` inserts the boundary entry at `end_time` at its
`bisect_right` position in the full timeline. -/
def allocate_slot (avail : List ProfileEntry) (X : Finset Int) (startTime endTime : Int) : Option (List ProfileEntry) :=
  match findLESplit avail startTime with
  | none => none
  | some (pre, a, suf) =>
    if a.time = startTime then
      if startTime ≤ endTime then some (pre ++ allocLoop X endTime suf (bump a))
      else some (insertByTime (pre ++ bump a :: suf) ⟨endTime, a.resources, 1⟩)
    else
      if startTime ≤ endTime then
        some (pre ++ a :: allocLoop X endTime suf ⟨startTime, a.resources, 1⟩)
      else
        some (insertByTime (pre ++ a :: (⟨startTime, a.resources, 1⟩ : ProfileEntry) :: suf) ⟨endTime, a.resources, 1⟩)

/-- The failure channel of the public mutator. -/
inductive ProfileError where
  | invalidWindow
  | missingAnchor
deriving DecidableEq

/-- Modelled from the spec: the public `allocate_resources(X, start, end)` is
absent from src/ (the tests call it; src/ only contains `allocate_slot`).
Spec sections 6 and 7: it fails with InvalidWindow when `end ≤ start`
(`comparator.le`), raising eagerly before any mutation, and otherwise
delegates to the slot mutation; `missingAnchor` stands for the
`AttributeError` escaping `allocate_slot` when the window starts before the
first entry. -/
def allocate_resources (avail : List ProfileEntry) (X : Finset Int) (startTime endTime : Int) : Except ProfileError (List ProfileEntry) :=
  if endTime ≤ startTime then .error .invalidWindow
  else
    match allocate_slot avail X startTime endTime with
    | none => .error .missingAnchor
    | some l => .ok l

/-- The timeline after a call to `allocate_resources`: unchanged when the
call raises, because the InvalidWindow check precedes any mutation and the
anchor lookup failure occurs before `allocate_slot` touches an entry. -/
def allocPost (avail : List ProfileEntry) (X : Finset Int) (startTime endTime : Int) : List ProfileEntry :=
  match allocate_resources avail X startTime endTime with
  | .ok l => l
  | .error _ => avail

/-- `ABCProfile.remove_past_entries(earliest_time)`: drop the strict prefix
before the anchor when the anchor's index is positive. -/
def remove_past_entries (avail : List ProfileEntry) (earliestTime : Int) : List ProfileEntry :=
  let k := bisectRight avail earliestTime
  if 2 ≤ k then avail.drop (k - 1) else avail

/-- `copy.copy(entry)`: `ProfileEntry.__copy__` copies time and resources and
resets `num_units` to its default 1. -/
def copyEntry (en : ProfileEntry) : ProfileEntry := ⟨en.time, en.resources, 1⟩

/-- `ABCProfile._clone_availability(start_time, end_time)`: walk from the
anchor index while `entry.time ≤ end_time`, adding copies to a fresh sorted
list.  When `_find_le` returns `-1` the walk starts at Python's `avail[-1]`
(the last entry) and then wraps to index 0, re-traversing the whole list, so
the last entry can be cloned twice; `.add` places each copy at its
`bisect_right` position.  (On an empty timeline Python raises IndexError;
the invariant keeps the timeline non-empty, and the embedding returns `[]`.) -/
def cloneList (avail : List ProfileEntry) (startTime endTime : Int) : List ProfileEntry :=
  let k := bisectRight avail startTime
  let walked :=
    if k = 0 then
      match avail.getLast? with
      | none => []
      | some la =>
        if endTime < la.time then []
        else la :: avail.takeWhile fun en => decide (¬ endTime < en.time)
    else (avail.drop (k - 1)).takeWhile fun en => decide (¬ endTime < en.time)
  (walked.map copyEntry).foldl insertByTime []

/-- Placeholder entry for out-of-range positional reads (never reached on the
inputs the theorems use). -/
def dummyEntry : ProfileEntry := ⟨0, ∅, 1⟩

/-- `entry.resources -= slot_res` applied to the clone positions
`slot_start_idx .. slot_end_idx` (`range(slot_start_idx, slot_end_idx + 1)`). -/
def subIdxRange (l : List ProfileEntry) (lo hi : Nat) (X : Finset Int) : List ProfileEntry :=
  l.enum.map fun p => if lo ≤ p.1 ∧ p.1 ≤ hi then subX X p.2 else p.2

/-- Inner scan of `time_slots` from clone index `idx + 1`: intersect
followers, recording the slot resources and `slot_end_idx` after every
non-empty intersection and stopping with `slot_end = follow_entry.time` at
the first empty one (`slot_end` stays `end_time` if none is empty).
Arguments: entries still to scan, their starting index, current `slot_res`,
current `intersection`, current `slot_end_idx`. -/
def tsInner (endTime : Int) : List ProfileEntry → Nat → Finset Int → Finset Int → Nat → Finset Int × Int × Nat
  | [], _, slotRes, _, endIdx => (slotRes, endTime, endIdx)
  | en :: rest, i, slotRes, inter, endIdx =>
    let inter2 := inter ∩ en.resources
    if inter2.card = 0 then (slotRes, en.time, endIdx)
    else tsInner endTime rest (i + 1) inter2 inter2 i

/-- The `while entry.resources.quantity > 0` loop of `time_slots` for the
anchor at `anchorIdx`.  After the subtraction pass the loop variable `entry`
has been rebound to `profile[slot_end_idx]` — the source's rebinding of
`entry` inside the `for idx_in in range(...)` pass — so the next iteration
tests and reads that entry, not the anchor; `slot_end_idx` persists across
iterations.  The fuel only bounds the iteration count (each iteration
strictly shrinks the clone's total card); `none` marks exhaustion and never
occurs on the evaluated inputs. -/
def tsWhile (endTime slotStart : Int) (anchorIdx : Nat) : Nat → List ProfileEntry → Nat → Nat → Option (List TimeSlot × List ProfileEntry)
  | 0, _, _, _ => none
  | fuel + 1, profile, endIdx, entryIdx =>
    let entry := profile.getD entryIdx dummyEntry
    if entry.resources.card = 0 then some ([], profile)
    else
      match tsInner endTime (profile.drop (anchorIdx + 1)) (anchorIdx + 1) entry.resources entry.resources endIdx with
      | (slotRes, slotEnd, endIdx2) =>
        let profile2 := subIdxRange profile anchorIdx endIdx2 slotRes
        (tsWhile endTime slotStart anchorIdx fuel profile2 endIdx2 endIdx2).map
          fun p => (⟨⟨slotStart, slotEnd⟩, some slotRes⟩ :: p.1, p.2)

/-- `for idx, entry in enumerate(profile)` of `time_slots`: `k` counts the
remaining indices, `idx` is the current one; entries with empty sets are
skipped; mutations made while processing earlier anchors are visible. -/
def tsOuter (endTime : Int) : Nat → Nat → List ProfileEntry → Option (List TimeSlot × List ProfileEntry)
  | 0, _, profile => some ([], profile)
  | k + 1, idx, profile =>
    let entry := profile.getD idx dummyEntry
    if entry.resources.card = 0 then tsOuter endTime k (idx + 1) profile
    else
      match tsWhile endTime entry.time idx ((profile.map fun en => en.resources.card).sum + 1) profile idx idx with
      | none => none
      | some (sl, profile2) =>
        (tsOuter endTime k (idx + 1) profile2).map fun p => (sl ++ p.1, p.2)

/-- `ABCProfile.time_slots(start_time, end_time)` (the public
`free_time_slots`): operates on a deep clone of the timeline slice. -/
def time_slots (avail : List ProfileEntry) (startTime endTime : Int) : Option (List TimeSlot) :=
  let clone := cloneList avail startTime endTime
  (tsOuter endTime clone.length 0 clone).map Prod.fst

/-- Inner `for idx_in, next_entry in enumerate(self._avail[index + 1:])` of
`scheduling_options`: find the first follower with time `< end_time` whose
intersection with `slot_ranges` has a different (smaller) quantity, returning
it with the intersection; `none` when no follower changes the quantity. -/
def soInner (slotRanges : Finset Int) (endTime : Int) : List ProfileEntry → Option (ProfileEntry × Finset Int)
  | [] => none
  | en :: rest =>
    if endTime ≤ en.time then none
    else
      let inter := slotRanges ∩ en.resources
      if inter.card = slotRanges.card then soInner slotRanges endTime rest
      else some (en, inter)

/-- The `while slot_ranges is not None and slot_ranges.quantity > 0` loop of
`scheduling_options`.  When no follower changes the quantity and the tail
slot `[slot_start, end_time)` fails the duration/quantity thresholds, the
source loops forever (nothing changes `slot_ranges`); that branch is `none`.
The fuel is `slot_ranges.card + 1`, enough because every recursive call
strictly shrinks `slot_ranges`. -/
def soWhile (followers : List ProfileEntry) (endTime minDuration minQuantity slotStart : Int) : Nat → Finset Int → Option (List TimeSlot)
  | 0, _ => none
  | fuel + 1, slotRanges =>
    if slotRanges.card = 0 then some []
    else
      match soInner slotRanges endTime followers with
      | none =>
        if minDuration ≤ endTime - slotStart ∧ minQuantity ≤ (slotRanges.card : Int) then
          some [⟨⟨slotStart, endTime⟩, some slotRanges⟩]
        else none
      | some (en, inter) =>
        let slotEnd := min en.time endTime
        let emitted :=
          if minDuration ≤ slotEnd - slotStart ∧ minQuantity ≤ (slotRanges.card : Int) then
            [(⟨⟨slotStart, slotEnd⟩, some slotRanges⟩ : TimeSlot)]
          else []
        (soWhile followers endTime minDuration minQuantity slotStart fuel inter).map (emitted ++ ·)

/-- Outer loop of `scheduling_options` over `self._avail[index:]`: break at
the first entry with time `≥ end_time`, skip empty entries, and for each
anchor run the while loop with `slot_start = max(entry.time, start_time)`.
The follower list is always `self._avail[index + 1:]` for the anchor of
`start_time` — it does not advance with the outer anchor. -/
def soOuter (followers : List ProfileEntry) (startTime endTime minDuration minQuantity : Int) : List ProfileEntry → Option (List TimeSlot)
  | [] => some []
  | entry :: rest =>
    if endTime ≤ entry.time then some []
    else if entry.resources.card = 0 then soOuter followers startTime endTime minDuration minQuantity rest
    else
      match soWhile followers endTime minDuration minQuantity (max entry.time startTime) (entry.resources.card + 1) entry.resources with
      | none => none
      | some sl => (soOuter followers startTime endTime minDuration minQuantity rest).map (sl ++ ·)

/-- `ABCProfile.scheduling_options(start_time, end_time, min_duration,
min_quantity)`.  With `_find_le` index `-1`, Python's `avail[-1:]` is the
last entry and `avail[0:]` the whole list.  `none` marks the source's
non-termination branch (see `soWhile`). -/
def scheduling_options (avail : List ProfileEntry) (startTime endTime minDuration minQuantity : Int) : Option (List TimeSlot) :=
  let k := bisectRight avail startTime
  let outerL := if k = 0 then avail.getLast?.toList else avail.drop (k - 1)
  let followers := if k = 0 then avail else avail.drop k
  soOuter followers startTime endTime minDuration minQuantity outerL

/-- Modelled from the spec: `select_resources(S, Q)` is absent from src/
(only the tests call it).  Spec section 4.7: fail with InsufficientResources
(`none`) when `S` is none or `|S| < Q`; otherwise iterate the ranges in
ascending order, greedily taking whole ranges and splitting the final one —
i.e. take the `Q` least identifiers of `S` (the members with fewer than `Q`
smaller members). -/
def select_resources (resources : Option (Finset Int)) (quantity : Int) : Option (Finset Int) :=
  match resources with
  | none => none
  | some s =>
    if (s.card : Int) < quantity then none
    else some (s.filter fun x => ((s.filter fun y => y < x).card : Int) < quantity)

/-- State-passing form of `check_availability`, recording its frame effect:
the method only reads `self._avail` (via `_find_le` and slicing), copies the
anchor's set before intersecting, and never assigns to the timeline, so the
post-state is the pre-state. -/
def check_availabilityM (avail : List ProfileEntry) (quantity startTime duration : Int) : Option TimeSlot × List ProfileEntry :=
  (check_availability avail quantity startTime duration, avail)

/-- State-passing form of `find_start_time`: each anchor's set is copied
(`anchor.resources.copy()`) and `&=` rebinds the local to a fresh set, so the
timeline is untouched. -/
def find_start_timeM (avail : List ProfileEntry) (quantity readyTime duration : Int) : Option TimeSlot × List ProfileEntry :=
  (find_start_time avail quantity readyTime duration, avail)

/-- State-passing form of `time_slots`: all subtraction passes mutate the
deep clone built by `_clone_availability`, never `self._avail`. -/
def time_slotsM (avail : List ProfileEntry) (startTime endTime : Int) : Option (List TimeSlot) × List ProfileEntry :=
  (time_slots avail startTime endTime, avail)

/-- State-passing form of `scheduling_options`: `slot_ranges` starts as a
copy of the entry's set and `&` returns fresh sets, so the timeline is
untouched. -/
def scheduling_optionsM (avail : List ProfileEntry) (startTime endTime minDuration minQuantity : Int) : Option (List TimeSlot) × List ProfileEntry :=
  (scheduling_options avail startTime endTime minDuration minQuantity, avail)

/-- Invariant of claim C8: a non-empty, strictly time-sorted timeline. -/
def profileInv (l : List ProfileEntry) : Prop := l ≠ [] ∧ timesSorted l

/-- The profile of boundary scenario 4 / test_allocate: capacity 10 with
`{[0,8)}` allocated over `[5,10)`. -/
def profileScenario4 : Option (List ProfileEntry) :=
  allocate_slot (initAvail 10) (rng 0 8) 5 10

/-- The profile of test `_allocate`: capacity 10, `{[2,7)}` allocated over
`[5,10)` then `{[0,2)}` over `[0,5)`. -/
def profileScenario36 : Option (List ProfileEntry) :=
  (allocate_slot (initAvail 10) (rng 2 7) 5 10).bind
    fun l => allocate_slot l (rng 0 2) 0 5

/-- A capacity-4 profile with four disjoint-in-time allocations:
`{2,3}` over `[0,5)`, `{1,3}` over `[5,10)`, `{0,1}` over `[10,15)`,
`{1,3}` over `[15,20)`. -/
def profileScenarioTS : Option (List ProfileEntry) :=
  (allocate_slot (initAvail 4) ({2, 3} : Finset Int) 0 5).bind fun l1 =>
    (allocate_slot l1 ({1, 3} : Finset Int) 5 10).bind fun l2 =>
      (allocate_slot l2 ({0, 1} : Finset Int) 10 15).bind fun l3 =>
        allocate_slot l3 ({1, 3} : Finset Int) 15 20

/-- The final value of `last_checked` after the subtraction loop of
`allocate_slot` run from `c` over `rest`: the last entry of `rest` with time
`≤ endTime` (on a sorted suffix), or `c` itself when none qualifies. -/
def lastCheck (endTime : Int) (c : ProfileEntry) (rest : List ProfileEntry) : ProfileEntry :=
  ((rest.takeWhile fun n => decide (n.time ≤ endTime)).getLast?).getD c

lemma interFold_subset : ∀ (fs : List ProfileEntry) (acc : Finset Int),
    fs.foldl (fun ac en => ac ∩ en.resources) acc ⊆ acc := by
  intro fs
  induction fs with
  | nil => intro acc; exact subset_rfl
  | cons f fs ih =>
    intro acc
    exact (ih (acc ∩ f.resources)).trans Finset.inter_subset_left

lemma fstInner_spec (q pe : Int) :
    ∀ (fs : List ProfileEntry) (acc : Finset Int),
      (q ≤ ((fstInner q pe acc fs).card : Int) ↔
        q ≤ (((fs.takeWhile fun en => decide (en.time < pe)).foldl
          (fun ac en => ac ∩ en.resources) acc).card : Int)) ∧
      (q ≤ (((fs.takeWhile fun en => decide (en.time < pe)).foldl
          (fun ac en => ac ∩ en.resources) acc).card : Int) →
        fstInner q pe acc fs =
          (fs.takeWhile fun en => decide (en.time < pe)).foldl
            (fun ac en => ac ∩ en.resources) acc) := by
  intro fs
  induction fs with
  | nil => intro acc; exact ⟨Iff.rfl, fun _ => rfl⟩
  | cons f fs ih =>
    intro acc
    by_cases h1 : q ≤ (acc.card : Int)
    · by_cases h2 : pe ≤ f.time
      · have htw : ((f :: fs).takeWhile fun en => decide (en.time < pe)) = [] := by
          simp [List.takeWhile, not_lt.mpr h2]
        rw [htw]
        have hinner : fstInner q pe acc (f :: fs) = acc := by
          simp [fstInner, h1, h2]
        rw [hinner]
        exact ⟨Iff.rfl, fun _ => rfl⟩
      · have hlt : f.time < pe := lt_of_not_le h2
        have htw : ((f :: fs).takeWhile fun en => decide (en.time < pe)) =
            f :: (fs.takeWhile fun en => decide (en.time < pe)) := by
          simp [List.takeWhile, hlt]
        have hinner : fstInner q pe acc (f :: fs) =
            fstInner q pe (acc ∩ f.resources) fs := by
          simp [fstInner, h1, h2]
        rw [htw, hinner]
        exact ih (acc ∩ f.resources)
    · have hinner : fstInner q pe acc (f :: fs) = acc := by
        simp [fstInner, h1]
      have hsub : ((f :: fs).takeWhile fun en => decide (en.time < pe)).foldl
          (fun ac en => ac ∩ en.resources) acc ⊆ acc := interFold_subset _ _
      have hcard : ¬ q ≤ ((((f :: fs).takeWhile fun en => decide (en.time < pe)).foldl
          (fun ac en => ac ∩ en.resources) acc).card : Int) := by
        intro hq
        exact h1 (hq.trans (Int.ofNat_le.mpr (Finset.card_le_card hsub)))
      rw [hinner]
      exact ⟨iff_of_false h1 hcard, fun hq => absurd hq hcard⟩

lemma fstInner_windowSet (q d : Int) (a : ProfileEntry) (rest : List ProfileEntry) :
    (q ≤ ((fstInner q (a.time + d) a.resources rest).card : Int) ↔
      q ≤ ((windowSet d a rest).card : Int)) ∧
    (q ≤ ((windowSet d a rest).card : Int) →
      fstInner q (a.time + d) a.resources rest = windowSet d a rest) :=
  fstInner_spec q (a.time + d) rest a.resources

lemma fstLoop_eq_firstFit (q d : Int) :
    ∀ l : List ProfileEntry,
      fstLoop q d l =
        (firstFit q d l).map fun p => ⟨⟨p.1, p.1 + d⟩, some p.2⟩ := by
  intro l
  induction l with
  | nil => rfl
  | cons a rest ih =>
    have hspec := fstInner_windowSet q d a rest
    by_cases hq : q ≤ ((windowSet d a rest).card : Int)
    · have h1 : q ≤ ((fstInner q (a.time + d) a.resources rest).card : Int) :=
        hspec.1.mpr hq
      have h2 : fstInner q (a.time + d) a.resources rest = windowSet d a rest :=
        hspec.2 hq
      simp [fstLoop, firstFit, h1, h2, hq]
    · have h1 : ¬ q ≤ ((fstInner q (a.time + d) a.resources rest).card : Int) := by
        intro h; exact hq (hspec.1.mp h)
      simp [fstLoop, firstFit, h1, hq, ih]

lemma takeWhile_append_all {p : ProfileEntry → Bool} :
    ∀ {l1 l2 : List ProfileEntry}, (∀ x ∈ l1, p x = true) →
      (l1 ++ l2).takeWhile p = l1 ++ l2.takeWhile p := by
  intro l1
  induction l1 with
  | nil => intro l2 _; rfl
  | cons x xs ih =>
    intro l2 h
    have hx : p x = true := h x (List.mem_cons_self _ _)
    simp only [List.cons_append, List.takeWhile_cons, hx, if_true]
    rw [ih fun y hy => h y (List.mem_cons_of_mem _ hy)]

lemma getLastD_cons (x c : ProfileEntry) (xs : List ProfileEntry) :
    ((x :: xs).getLast?).getD c = (xs.getLast?).getD x := by
  induction xs generalizing x with
  | nil => rfl
  | cons y ys _ => rw [List.getLast?_cons_cons]; cases h : (y :: ys).getLast? <;> simp_all

lemma dropWhile_head_false {p : ProfileEntry → Bool} :
    ∀ (l : List ProfileEntry), ∀ y ∈ (l.dropWhile p).head?, p y = false := by
  intro l
  induction l with
  | nil => intro y hy; cases hy
  | cons x xs ih =>
    intro y hy
    by_cases hx : p x
    · rw [List.dropWhile_cons_of_pos hx] at hy; exact ih y hy
    · rw [List.dropWhile_cons_of_neg hx] at hy
      simp only [List.head?_cons, Option.mem_def, Option.some_inj] at hy
      rw [← hy]; exact Bool.eq_false_iff.mpr hx

lemma pairwise_all_gt {c : Int} {l : List ProfileEntry} (hs : timesSorted l)
    (hh : ∀ y ∈ l.head?, c < y.time) : ∀ y ∈ l, c < y.time := by
  cases l with
  | nil => intro y hy; cases hy
  | cons x xs =>
    intro y hy
    have hx : c < x.time := hh x rfl
    rcases List.mem_cons.mp hy with rfl | hmem
    · exact hx
    · exact hx.trans ((List.pairwise_cons.mp hs).1 y hmem)

lemma findLESplit_cons_none {t : Int} {y : ProfileEntry} {ys : List ProfileEntry}
    (h : findLESplit (y :: ys) t = none) : t < y.time := by
  by_contra hlt
  rw [findLESplit, if_neg hlt] at h
  cases hfind : findLESplit ys t with
  | none => rw [hfind] at h; cases h
  | some v => rw [hfind] at h; cases h

lemma findLESplit_decomp :
    ∀ (l : List ProfileEntry) (t : Int) (pre : List ProfileEntry) (a : ProfileEntry)
      (suf : List ProfileEntry), findLESplit l t = some (pre, a, suf) →
      l = pre ++ a :: suf ∧ a.time ≤ t ∧ (∀ x ∈ pre, x.time ≤ t) ∧
        (∀ y ∈ suf.head?, t < y.time) := by
  intro l
  induction l with
  | nil => intro t pre a suf h; cases h
  | cons en rest ih =>
    intro t pre a suf h
    rw [findLESplit] at h
    by_cases hlt : t < en.time
    · rw [if_pos hlt] at h; cases h
    · rw [if_neg hlt] at h
      cases hfind : findLESplit rest t with
      | none =>
        rw [hfind] at h
        simp only [Option.some.injEq, Prod.mk.injEq] at h
        obtain ⟨rfl, rfl, rfl⟩ := h
        refine ⟨rfl, not_lt.mp hlt, ?_, ?_⟩
        · intro x hx; cases hx
        · intro y hy
          cases rest with
          | nil => cases hy
          | cons r rs =>
            simp only [List.head?_cons, Option.mem_def, Option.some_inj] at hy
            rw [← hy]; exact findLESplit_cons_none hfind
      | some v =>
        obtain ⟨pre2, a2, suf2⟩ := v
        rw [hfind] at h
        simp only [Option.some.injEq, Prod.mk.injEq] at h
        obtain ⟨rfl, rfl, rfl⟩ := h
        obtain ⟨hl, hat, hp, hh⟩ := ih t pre2 a2 suf2 hfind
        refine ⟨by rw [List.cons_append, hl], hat, ?_, hh⟩
        intro x hx
        rcases List.mem_cons.mp hx with rfl | hmem
        · exact not_lt.mp hlt
        · exact hp x hmem

lemma availAt_concat_last (l1 : List ProfileEntry) (a : ProfileEntry) (l2 : List ProfileEntry)
    (t : Int) (h1 : ∀ x ∈ l1, x.time ≤ t) (ha : a.time ≤ t) :
    availAt (l1 ++ a :: l2) t =
      (((l2.takeWhile fun en => decide (en.time ≤ t)).getLast?).getD a).resources := by
  rw [availAt, takeWhile_append_all (fun x hx => decide_eq_true (h1 x hx))]
  have hcons : ((a :: l2).takeWhile fun en => decide (en.time ≤ t)) =
      a :: (l2.takeWhile fun en => decide (en.time ≤ t)) := by
    simp only [List.takeWhile_cons, decide_eq_true ha, if_true]
  rw [hcons, List.getLast?_append_cons]
  cases hlast : (l2.takeWhile fun en => decide (en.time ≤ t)).getLast? with
  | none =>
    have : (l2.takeWhile fun en => decide (en.time ≤ t)) = [] :=
      List.getLast?_eq_none_iff.mp hlast
    rw [this]; rfl
  | some y =>
    have hne : (l2.takeWhile fun en => decide (en.time ≤ t)) ≠ [] := by
      intro hnil; rw [hnil] at hlast; cases hlast
    cases htw : (l2.takeWhile fun en => decide (en.time ≤ t)) with
    | nil => exact absurd htw hne
    | cons w ws =>
      rw [htw] at hlast
      rw [List.getLast?_cons_cons, hlast]
      rfl

lemma availAt_self {l : List ProfileEntry} (hsort : timesSorted l) {en : ProfileEntry}
    (hen : en ∈ l) : availAt l en.time = en.resources := by
  obtain ⟨u, v, rfl⟩ := List.append_of_mem hen
  have hu : ∀ x ∈ u, x.time ≤ en.time := by
    intro x hx
    have := (List.pairwise_append.mp hsort).2.2 x hx en (List.mem_cons_self _ _)
    exact this.le
  have hv : ∀ y ∈ v.head?, en.time < y.time := by
    intro y hy
    have hpc := List.pairwise_cons.mp (List.pairwise_append.mp hsort).2.1
    cases v with
    | nil => cases hy
    | cons w ws =>
      simp only [List.head?_cons, Option.mem_def, Option.some_inj] at hy
      rw [← hy]; exact hpc.1 w (List.mem_cons_self _ _)
  rw [availAt_concat_last u en v en.time hu le_rfl]
  have htw : (v.takeWhile fun x => decide (x.time ≤ en.time)) = [] := by
    cases v with
    | nil => rfl
    | cons w ws =>
      have hw : ¬ w.time ≤ en.time := not_le.mpr (hv w rfl)
      simp [List.takeWhile_cons, hw]
  rw [htw]
  rfl

lemma lastCheck_cons_le {endTime : Int} {n : ProfileEntry} (c : ProfileEntry)
    (rest : List ProfileEntry) (hn : n.time ≤ endTime) :
    lastCheck endTime c (n :: rest) = lastCheck endTime n rest := by
  rw [lastCheck, lastCheck]
  simp only [List.takeWhile_cons, decide_eq_true hn, if_true]
  exact getLastD_cons n c _

lemma lastCheck_cons_gt {endTime : Int} {n : ProfileEntry} (c : ProfileEntry)
    (rest : List ProfileEntry) (hn : ¬ n.time ≤ endTime) :
    lastCheck endTime c (n :: rest) = c := by
  simp [lastCheck, List.takeWhile_cons, hn]

lemma allocLoop_spec (X : Finset Int) (e : Int) :
    ∀ (rest : List ProfileEntry) (c : ProfileEntry),
      timesSorted (c :: rest) → c.time ≤ e →
      timesSorted (allocLoop X e rest c) ∧
      (∀ y ∈ allocLoop X e rest c, c.time ≤ y.time) ∧
      (c.time = e → bump c ∈ allocLoop X e rest c) ∧
      (c.time ≠ e → subX X c ∈ allocLoop X e rest c) ∧
      (∃ y ∈ allocLoop X e rest c, y.time = e) ∧
      (∀ en ∈ allocLoop X e rest c, en.time < e →
        en = subX X c ∨ ∃ y ∈ rest, en = subX X y) ∧
      (∀ en ∈ allocLoop X e rest c, e ≤ en.time →
        (∃ y ∈ rest, y.time = en.time ∧ en.resources = y.resources) ∨
          (en.time = e ∧ en.resources = (lastCheck e c rest).resources)) ∧
      (∀ y ∈ rest, y.time = e → bump y ∈ allocLoop X e rest c) := by
  intro rest
  induction rest with
  | nil =>
    intro c _ hce
    by_cases hc : c.time = e
    · simp only [allocLoop, if_pos hc]
      refine ⟨List.pairwise_singleton _ _, ?_, ?_, ?_, ?_, ?_, ?_, ?_⟩
      · intro y hy; rw [List.mem_singleton.mp hy]; exact le_rfl
      · intro _; exact List.mem_singleton.mpr rfl
      · intro h; exact absurd hc h
      · exact ⟨bump c, List.mem_singleton.mpr rfl, hc⟩
      · intro en hen hlt
        rw [List.mem_singleton.mp hen] at hlt
        exact absurd hlt (by rw [bump] at hlt ⊢; exact not_lt.mpr hc.ge)
      · intro en hen _
        rw [List.mem_singleton.mp hen]
        exact Or.inr ⟨hc, rfl⟩
      · intro y hy; cases hy
    · simp only [allocLoop, if_neg hc]
      have hclt : c.time < e := lt_of_le_of_ne hce hc
      refine ⟨?_, ?_, ?_, ?_, ?_, ?_, ?_, ?_⟩
      · exact List.pairwise_cons.mpr
          ⟨fun y hy => by rw [List.mem_singleton.mp hy]; exact hclt,
            List.pairwise_singleton _ _⟩
      · intro y hy
        rcases List.mem_cons.mp hy with rfl | hy2
        · exact le_rfl
        · rw [List.mem_singleton.mp hy2]; exact hce
      · intro h; exact absurd h hc
      · intro _; exact List.mem_cons_self _ _
      · exact ⟨⟨e, c.resources, 1⟩, List.mem_cons_of_mem _ (List.mem_singleton.mpr rfl), rfl⟩
      · intro en hen hlt
        rcases List.mem_cons.mp hen with rfl | hen2
        · exact Or.inl rfl
        · rw [List.mem_singleton.mp hen2] at hlt
          exact absurd hlt (lt_irrefl e)
      · intro en hen hge
        rcases List.mem_cons.mp hen with rfl | hen2
        · exact absurd hge (not_le.mpr hclt)
        · rw [List.mem_singleton.mp hen2]
          exact Or.inr ⟨rfl, rfl⟩
      · intro y hy; cases hy
  | cons n rest ih =>
    intro c hsort hce
    have hhead : ∀ y ∈ n :: rest, c.time < y.time := (List.pairwise_cons.mp hsort).1
    have htail : timesSorted (n :: rest) := (List.pairwise_cons.mp hsort).2
    have hcn : c.time < n.time := hhead n (List.mem_cons_self _ _)
    have hnrest : ∀ y ∈ rest, n.time < y.time := (List.pairwise_cons.mp htail).1
    by_cases hn : n.time ≤ e
    · simp only [allocLoop, if_pos hn]
      have hclt : c.time < e := hcn.trans_le hn
      obtain ⟨ih1, ih2, ih3, ih4, ih5, ih6, ih7, ih8⟩ := ih n htail hn
      refine ⟨?_, ?_, ?_, ?_, ?_, ?_, ?_, ?_⟩
      · exact List.pairwise_cons.mpr
          ⟨fun y hy => by
            show c.time < y.time
            exact hcn.trans_le (ih2 y hy), ih1⟩
      · intro y hy
        rcases List.mem_cons.mp hy with rfl | hy2
        · exact le_rfl
        · exact (hcn.trans_le (ih2 y hy2)).le
      · intro h; exact absurd h (ne_of_lt hclt)
      · intro _; exact List.mem_cons_self _ _
      · obtain ⟨y, hy, hye⟩ := ih5
        exact ⟨y, List.mem_cons_of_mem _ hy, hye⟩
      · intro en hen hlt
        rcases List.mem_cons.mp hen with rfl | hen2
        · exact Or.inl rfl
        · rcases ih6 en hen2 hlt with h | ⟨y, hy, hyen⟩
          · exact Or.inr ⟨n, List.mem_cons_self _ _, h⟩
          · exact Or.inr ⟨y, List.mem_cons_of_mem _ hy, hyen⟩
      · intro en hen hge
        rcases List.mem_cons.mp hen with rfl | hen2
        · exact absurd hge (not_le.mpr (by simpa [subX] using hclt))
        · rcases ih7 en hen2 hge with ⟨y, hy, hyt, hyr⟩ | ⟨ht, hr⟩
          · exact Or.inl ⟨y, List.mem_cons_of_mem _ hy, hyt, hyr⟩
          · exact Or.inr ⟨ht, by rw [lastCheck_cons_le c rest hn]; exact hr⟩
      · intro y hy hye
        rcases List.mem_cons.mp hy with rfl | hy2
        · exact List.mem_cons_of_mem _ (ih3 hye)
        · exact List.mem_cons_of_mem _ (ih8 y hy2 hye)
    · have hen : e < n.time := not_le.mp hn
      have hlc : lastCheck e c (n :: rest) = c := lastCheck_cons_gt c rest hn
      by_cases hc : c.time = e
      · simp only [allocLoop, if_neg hn, if_pos hc]
        refine ⟨?_, ?_, ?_, ?_, ?_, ?_, ?_, ?_⟩
        · exact List.pairwise_cons.mpr ⟨fun y hy => hhead y hy, htail⟩
        · intro y hy
          rcases List.mem_cons.mp hy with rfl | hy2
          · exact le_rfl
          · exact (hhead y hy2).le
        · intro _; exact List.mem_cons_self _ _
        · intro h; exact absurd hc h
        · exact ⟨bump c, List.mem_cons_self _ _, hc⟩
        · intro en hen2 hlt
          rcases List.mem_cons.mp hen2 with rfl | hen3
          · exact absurd hlt (by rw [bump]; exact not_lt.mpr hc.ge)
          · rcases List.mem_cons.mp hen3 with rfl | hen4
            · exact absurd hlt (not_lt.mpr hen.le)
            · exact absurd hlt (not_lt.mpr (hen.le.trans (hnrest en hen4).le))
        · intro en hen2 _
          rcases List.mem_cons.mp hen2 with rfl | hen3
          · exact Or.inr ⟨hc, by rw [hlc]; rfl⟩
          · rcases List.mem_cons.mp hen3 with rfl | hen4
            · exact Or.inl ⟨en, List.mem_cons_self _ _, rfl, rfl⟩
            · exact Or.inl ⟨en, List.mem_cons_of_mem _ hen4, rfl, rfl⟩
        · intro y hy hye
          rcases List.mem_cons.mp hy with rfl | hy2
          · exact absurd hye (ne_of_gt hen)
          · exact absurd hye (ne_of_gt (hen.trans (hnrest y hy2)))
      · simp only [allocLoop, if_neg hn, if_neg hc]
        have hclt : c.time < e := lt_of_le_of_ne hce hc
        refine ⟨?_, ?_, ?_, ?_, ?_, ?_, ?_, ?_⟩
        · refine List.pairwise_cons.mpr ⟨?_, ?_⟩
          · intro y hy
            rcases List.mem_cons.mp hy with rfl | hy2
            · exact hclt
            · show c.time < y.time; exact hhead y hy2
          · refine List.pairwise_cons.mpr ⟨?_, htail⟩
            intro y hy
            rcases List.mem_cons.mp hy with rfl | hy2
            · exact hen
            · exact hen.trans (hnrest y hy2)
        · intro y hy
          rcases List.mem_cons.mp hy with rfl | hy2
          · exact le_rfl
          · rcases List.mem_cons.mp hy2 with rfl | hy3
            · exact hce
            · exact (hhead y hy3).le
        · intro h; exact absurd h hc
        · intro _; exact List.mem_cons_self _ _
        · exact ⟨⟨e, c.resources, 1⟩, List.mem_cons_of_mem _ (List.mem_cons_self _ _), rfl⟩
        · intro en hen2 hlt
          rcases List.mem_cons.mp hen2 with rfl | hen3
          · exact Or.inl rfl
          · rcases List.mem_cons.mp hen3 with rfl | hen4
            · exact absurd hlt (lt_irrefl e)
            · rcases List.mem_cons.mp hen4 with rfl | hen5
              · exact absurd hlt (not_lt.mpr hen.le)
              · exact absurd hlt (not_lt.mpr (hen.le.trans (hnrest en hen5).le))
        · intro en hen2 hge
          rcases List.mem_cons.mp hen2 with rfl | hen3
          · exact absurd hge (not_le.mpr hclt)
          · rcases List.mem_cons.mp hen3 with rfl | hen4
            · exact Or.inr ⟨rfl, by rw [hlc]⟩
            · rcases List.mem_cons.mp hen4 with rfl | hen5
              · exact Or.inl ⟨en, List.mem_cons_self _ _, rfl, rfl⟩
              · exact Or.inl ⟨en, List.mem_cons_of_mem _ hen5, rfl, rfl⟩
        · intro y hy hye
          rcases List.mem_cons.mp hy with rfl | hy2
          · exact absurd hye (ne_of_gt hen)
          · exact absurd hye (ne_of_gt (hen.trans (hnrest y hy2)))

lemma lastCheck_resources_getD (e : Int) (suf : List ProfileEntry) (c a : ProfileEntry)
    (hres : c.resources = a.resources) :
    (lastCheck e c suf).resources =
      (((suf.takeWhile fun en => decide (en.time ≤ e)).getLast?).getD a).resources := by
  rw [lastCheck]
  cases h : (suf.takeWhile fun en => decide (en.time ≤ e)).getLast? with
  | none => simpa using hres
  | some w => rfl

lemma allocate_slot_spec (avail : List ProfileEntry) (X : Finset Int) (s e : Int)
    (pre : List ProfileEntry) (a : ProfileEntry) (suf : List ProfileEntry)
    (hsort : timesSorted avail) (hfind : findLESplit avail s = some (pre, a, suf))
    (hse : s < e) :
    ∃ L, allocate_slot avail X s e = some L ∧
      L ≠ [] ∧ timesSorted L ∧
      (∀ en ∈ L, s ≤ en.time → en.time < e → en.resources = availAt avail en.time \ X) ∧
      (∀ en ∈ L, en.time < s ∨ e ≤ en.time → en.resources = availAt avail en.time) ∧
      (∃ en ∈ L, en.time = s) ∧ (∃ en ∈ L, en.time = e) ∧
      (∀ en ∈ avail, en.time = s ∨ en.time = e →
        ∃ en2 ∈ L, en2.time = en.time ∧ en2.num_units = en.num_units + 1) := by
  obtain ⟨havail, has, hpre_le, hhead⟩ := findLESplit_decomp avail s pre a suf hfind
  subst havail
  have hpa := List.pairwise_append.mp hsort
  have hpre_sorted : timesSorted pre := hpa.1
  have hcons_sorted : timesSorted (a :: suf) := hpa.2.1
  have hcross : ∀ x ∈ pre, ∀ y ∈ a :: suf, x.time < y.time := hpa.2.2
  have hasuf : ∀ y ∈ suf, a.time < y.time := (List.pairwise_cons.mp hcons_sorted).1
  have hsuf_sorted : timesSorted suf := (List.pairwise_cons.mp hcons_sorted).2
  have hsufs : ∀ y ∈ suf, s < y.time := pairwise_all_gt hsuf_sorted hhead
  have hpre_lt : ∀ x ∈ pre, x.time < s := fun x hx =>
    lt_of_lt_of_le (hcross x hx a (List.mem_cons_self _ _)) has
  have hAs : availAt (pre ++ a :: suf) s = a.resources := by
    rw [availAt_concat_last pre a suf s hpre_le has]
    have htw : (suf.takeWhile fun en => decide (en.time ≤ s)) = [] := by
      cases suf with
      | nil => rfl
      | cons y ys =>
        have hy : ¬ y.time ≤ s := not_le.mpr (hsufs y (List.mem_cons_self _ _))
        simp [List.takeWhile_cons, hy]
    rw [htw]
    rfl
  have hAe : availAt (pre ++ a :: suf) e =
      (((suf.takeWhile fun en => decide (en.time ≤ e)).getLast?).getD a).resources :=
    availAt_concat_last pre a suf e (fun x hx => ((hpre_le x hx).trans hse.le)) (has.trans hse.le)
  have hself : ∀ y ∈ pre ++ a :: suf, availAt (pre ++ a :: suf) y.time = y.resources :=
    fun y hy => availAt_self hsort hy
  by_cases haeq : a.time = s
  · -- the anchor coincides with start_time; its refcount is bumped in place
    have hcsort : timesSorted (bump a :: suf) :=
      List.pairwise_cons.mpr ⟨fun y hy => hasuf y hy, hsuf_sorted⟩
    have hc_time : (bump a).time = s := haeq
    obtain ⟨al1, al2, al3, al4, al5, al6, al7, al8⟩ :=
      allocLoop_spec X e suf (bump a) hcsort (by rw [hc_time]; exact hse.le)
    have hcne : (bump a).time ≠ e := by rw [hc_time]; exact hse.ne
    refine ⟨pre ++ allocLoop X e suf (bump a), ?_, ?_, ?_, ?_, ?_, ?_, ?_, ?_⟩
    · simp only [allocate_slot, hfind, if_pos haeq, if_pos hse.le]
    · obtain ⟨y, hy, _⟩ := al5
      intro hnil
      rw [List.append_eq_nil] at hnil
      rw [hnil.2] at hy
      cases hy
    · refine List.pairwise_append.mpr ⟨hpre_sorted, al1, ?_⟩
      intro x hx y hy
      have hx2 : x.time < (bump a).time := by rw [hc_time]; exact hpre_lt x hx
      exact lt_of_lt_of_le hx2 (al2 y hy)
    · intro en hen hs he2
      rcases List.mem_append.mp hen with hmem | hmem
      · exact absurd hs (not_le.mpr (hpre_lt en hmem))
      · rcases al6 en hmem he2 with rfl | ⟨y, hy, rfl⟩
        · have ht : (subX X (bump a)).time = s := hc_time
          rw [ht, hAs]
          rfl
        · have ht : (subX X y).time = y.time := rfl
          rw [ht, hself y (List.mem_append_right _ (List.mem_cons_of_mem _ hy))]
          rfl
    · intro en hen hor
      rcases List.mem_append.mp hen with hmem | hmem
      · exact (hself en (List.mem_append_left _ hmem)).symm
      · rcases hor with hlt | hge
        · have : s ≤ en.time := by rw [← hc_time]; exact al2 en hmem
          exact absurd hlt (not_lt.mpr this)
        · rcases al7 en hmem hge with ⟨y, hy, hyt, hyr⟩ | ⟨ht, hr⟩
          · rw [hyr, ← hyt,
              hself y (List.mem_append_right _ (List.mem_cons_of_mem _ hy))]
          · rw [ht, hAe, hr, lastCheck_resources_getD e suf (bump a) a rfl]
    · exact ⟨subX X (bump a), List.mem_append_right _ (al4 hcne), hc_time⟩
    · obtain ⟨y, hy, hye⟩ := al5
      exact ⟨y, List.mem_append_right _ hy, hye⟩
    · intro en hen hor
      rcases List.mem_append.mp hen with hmem | hmem
      · rcases hor with ht | ht
        · exact absurd ht (ne_of_lt (hpre_lt en hmem))
        · exact absurd ht (ne_of_lt ((hpre_lt en hmem).trans hse))
      · rcases List.mem_cons.mp hmem with rfl | hmem2
        · rcases hor with ht | ht
          · exact ⟨subX X (bump en), List.mem_append_right _ (al4 hcne),
              by rw [show (subX X (bump en)).time = en.time from rfl], rfl⟩
          · exact absurd ht (by rw [haeq]; exact hse.ne)
        · rcases hor with ht | ht
          · exact absurd ht (ne_of_gt (hsufs en hmem2))
          · exact ⟨bump en, List.mem_append_right _ (al8 en hmem2 ht),
              rfl, rfl⟩
  · -- the anchor strictly precedes start_time; a fresh boundary entry is added
    have halt : a.time < s := lt_of_le_of_ne has haeq
    have hcsort : timesSorted ((⟨s, a.resources, 1⟩ : ProfileEntry) :: suf) :=
      List.pairwise_cons.mpr ⟨fun y hy => hsufs y hy, hsuf_sorted⟩
    have hc_time : (⟨s, a.resources, 1⟩ : ProfileEntry).time = s := rfl
    obtain ⟨al1, al2, al3, al4, al5, al6, al7, al8⟩ :=
      allocLoop_spec X e suf ⟨s, a.resources, 1⟩ hcsort hse.le
    have hcne : (⟨s, a.resources, 1⟩ : ProfileEntry).time ≠ e := hse.ne
    refine ⟨pre ++ a :: allocLoop X e suf ⟨s, a.resources, 1⟩, ?_, ?_, ?_, ?_, ?_, ?_, ?_, ?_⟩
    · simp only [allocate_slot, hfind, if_neg haeq, if_pos hse.le]
    · simp
    · refine List.pairwise_append.mpr ⟨hpre_sorted, ?_, ?_⟩
      · refine List.pairwise_cons.mpr ⟨?_, al1⟩
        intro y hy
        exact lt_of_lt_of_le halt (al2 y hy)
      · intro x hx y hy
        rcases List.mem_cons.mp hy with rfl | hy2
        · exact hcross x hx y (List.mem_cons_self _ _)
        · exact lt_of_lt_of_le ((hcross x hx a (List.mem_cons_self _ _)).trans halt)
            (al2 y hy2)
    · intro en hen hs he2
      rcases List.mem_append.mp hen with hmem | hmem
      · exact absurd hs (not_le.mpr (hpre_lt en hmem))
      · rcases List.mem_cons.mp hmem with rfl | hmem2
        · exact absurd hs (not_le.mpr halt)
        · rcases al6 en hmem2 he2 with rfl | ⟨y, hy, rfl⟩
          · rw [show (subX X (⟨s, a.resources, 1⟩ : ProfileEntry)).time = s from rfl, hAs]
            rfl
          · rw [show (subX X y).time = y.time from rfl,
              hself y (List.mem_append_right _ (List.mem_cons_of_mem _ hy))]
            rfl
    · intro en hen hor
      rcases List.mem_append.mp hen with hmem | hmem
      · exact (hself en (List.mem_append_left _ hmem)).symm
      · rcases List.mem_cons.mp hmem with rfl | hmem2
        · exact (hself en (List.mem_append_right _ (List.mem_cons_self _ _))).symm
        · rcases hor with hlt | hge
          · exact absurd hlt (not_lt.mpr (al2 en hmem2))
          · rcases al7 en hmem2 hge with ⟨y, hy, hyt, hyr⟩ | ⟨ht, hr⟩
            · rw [hyr, ← hyt,
                hself y (List.mem_append_right _ (List.mem_cons_of_mem _ hy))]
            · rw [ht, hAe, hr, lastCheck_resources_getD e suf ⟨s, a.resources, 1⟩ a rfl]
    · exact ⟨subX X ⟨s, a.resources, 1⟩,
        List.mem_append_right _ (List.mem_cons_of_mem _ (al4 hcne)), rfl⟩
    · obtain ⟨y, hy, hye⟩ := al5
      exact ⟨y, List.mem_append_right _ (List.mem_cons_of_mem _ hy), hye⟩
    · intro en hen hor
      rcases List.mem_append.mp hen with hmem | hmem
      · rcases hor with ht | ht
        · exact absurd ht (ne_of_lt (hpre_lt en hmem))
        · exact absurd ht (ne_of_lt ((hpre_lt en hmem).trans hse))
      · rcases List.mem_cons.mp hmem with rfl | hmem2
        · rcases hor with ht | ht
          · exact absurd ht haeq
          · exact absurd ht (ne_of_lt (halt.trans hse))
        · rcases hor with ht | ht
          · exact absurd ht (ne_of_gt (hsufs en hmem2))
          · exact ⟨bump en,
              List.mem_append_right _ (List.mem_cons_of_mem _ (al8 en hmem2 ht)),
              rfl, rfl⟩

example : bisectRight (initAvail 10) 0 = 1 := by decide
example : check_availability (initAvail 10) 1 0 1 = some ⟨⟨0, 1⟩, some (rng 0 10)⟩ := by decide
example : find_start_time (initAvail 10) 5 0 10 = some ⟨⟨0, 10⟩, some (rng 0 10)⟩ := by decide
example : profileScenario4 = some [⟨0, rng 0 10, 1⟩, ⟨5, rng 8 10, 1⟩, ⟨10, rng 0 10, 1⟩] := by decide
example : profileScenario36 =
    some [⟨0, rng 2 10, 2⟩, ⟨5, rng 0 2 ∪ rng 7 10, 2⟩, ⟨10, rng 0 10, 1⟩] := by decide
example : profileScenarioTS =
    some [⟨0, {0, 1}, 2⟩, ⟨5, {0, 2}, 2⟩, ⟨10, {2, 3}, 2⟩, ⟨15, {0, 2}, 2⟩, ⟨20, {0, 1, 2, 3}, 1⟩] := by decide

lemma bisectRight_le_length : ∀ (l : List ProfileEntry) (t : Int), bisectRight l t ≤ l.length := by
  intro l
  induction l with
  | nil => intro t; exact le_rfl
  | cons en rest ih =>
    intro t
    rw [bisectRight]
    by_cases h : t < en.time
    · rw [if_pos h]; exact Nat.zero_le _
    · rw [if_neg h, List.length_cons]
      exact Nat.succ_le_succ (ih t)

/-- C1: on a fresh discrete profile of capacity 10, after allocating `{[0,8)}`
over `[5,10)`, `check_availability(5, 5, 5)` returns the non-`⊥` set
`{[8,10)}` of measure 2 < 5 — not `⊥` as the claim (and the repository's own
`test_allocate`) requires: the quantity is only checked inside the loop over
entries after the anchor, which performs zero iterations here because the
next entry's time (10) already equals the window end. -/
theorem c1_check_availability_not_bot_on_scenario4 :
    profileScenario4.map (fun l => check_availability l 5 5 5) =
      some (some ⟨⟨5, 10⟩, some (rng 8 10)⟩) ∧
    (rng 8 10).card < 5 := by decide

/-- C2 counterexample: on a fresh discrete profile of capacity 10,
`find_start_time(5, 3, 10)` returns a slot starting at 0, which is neither
`max(ready, anchor.time) = 3` nor `≥ ready = 3`: the source sets
`pos_start = anchor.time` without taking the maximum with `ready_time`. -/
theorem c2_counterexample_start_before_ready :
    find_start_time (initAvail 10) 5 3 10 = some ⟨⟨0, 10⟩, some (rng 0 10)⟩ ∧
    (0 : Int) < 3 := by decide

/-- C2 (amended): `find_start_time(Q, r, d)` returns a slot exactly when some
anchor in `self._avail[index:]` (from `find_le(r)`; the slot start can
therefore be `< r`) has a full-window intersection of measure `≥ Q`; the
returned slot starts at the first such anchor's time — the earliest
qualifying anchor time — carries period `[a.t, a.t + d)` and exactly that
window intersection as resources. -/
theorem c2_find_start_time_first_fit (avail : List ProfileEntry)
    (quantity readyTime duration : Int) :
    find_start_time avail quantity readyTime duration =
      (firstFit quantity duration (anchors avail readyTime)).map
        fun p => ⟨⟨p.1, p.1 + duration⟩, some p.2⟩ :=
  fstLoop_eq_firstFit quantity duration (anchors avail readyTime)

/-- C3: on capacity 10 with `{[2,7)}` allocated over `[5,10)` and `{[0,2)}`
over `[0,5)`, `scheduling_options(0, 20, 2)` emits 4 slots with the claimed
periods in the claimed order, but the third and fourth slots carry
`{[0,2), [7,10)}` — not exactly `[0,2)` and not `[0,10)` (the repository's
own `test_scheduling_options` asserts `[0,10) ⊆ slots[3].resources`): the
inner scan starts at the fixed global `self._avail[index + 1:]`, so the
reduced entry at time 5 is intersected into windows anchored at 5 and 10. -/
theorem c3_scheduling_options_on_test_profile :
    profileScenario36.map (fun l => scheduling_options l 0 20 2 1) =
      some (some [⟨⟨0, 5⟩, some (rng 2 10)⟩, ⟨⟨0, 20⟩, some (rng 7 10)⟩,
        ⟨⟨5, 20⟩, some (rng 0 2 ∪ rng 7 10)⟩, ⟨⟨10, 20⟩, some (rng 0 2 ∪ rng 7 10)⟩]) ∧
    rng 0 2 ∪ rng 7 10 ≠ rng 0 2 ∧ rng 0 2 ∪ rng 7 10 ≠ rng 0 10 := by decide

/-- C4: on a sorted timeline with an anchor at or before `start < end`,
`allocate_slot(X, start, end)` succeeds and afterwards every entry with time
in `[start, end)` carries its previous availability minus `X`, entries exist
at `start` and at `end`, a pre-existing entry at `start` or `end` has its
`num_units` incremented by one, and every entry outside `[start, end)` keeps
its previous resource set. -/
theorem c4_allocate_slot_effect (avail : List ProfileEntry) (X : Finset Int) (s e : Int)
    (hsort : timesSorted avail) (hfind : (findLESplit avail s).isSome) (hse : s < e)
    (_hfree : ∀ t ∈ Finset.Ico s e, X ⊆ availAt avail t) :
    ∃ L, allocate_slot avail X s e = some L ∧
      (∀ en ∈ L, s ≤ en.time → en.time < e → en.resources = availAt avail en.time \ X) ∧
      (∃ en ∈ L, en.time = s) ∧ (∃ en ∈ L, en.time = e) ∧
      (∀ en ∈ avail, en.time = s ∨ en.time = e →
        ∃ en2 ∈ L, en2.time = en.time ∧ en2.num_units = en.num_units + 1) ∧
      (∀ en ∈ L, en.time < s ∨ e ≤ en.time → en.resources = availAt avail en.time) := by
  cases h2 : findLESplit avail s with
  | none => rw [h2] at hfind; cases hfind
  | some v =>
    obtain ⟨pre, a, suf⟩ := v
    obtain ⟨L, hL, _, _, hwin, hout, hats, hate, hbump⟩ :=
      allocate_slot_spec avail X s e pre a suf hsort h2 hse
    exact ⟨L, hL, hwin, hats, hate, hbump, hout⟩

/-- C4 witness: a concrete application on the fresh capacity-10 profile,
allocating `{[0,2)}` over `[1,3)`. -/
theorem c4_allocate_slot_effect_witness :
    ∃ L, allocate_slot (initAvail 10) (rng 0 2) 1 3 = some L ∧
      (∀ en ∈ L, 1 ≤ en.time → en.time < 3 →
        en.resources = availAt (initAvail 10) en.time \ rng 0 2) ∧
      (∃ en ∈ L, en.time = 1) ∧ (∃ en ∈ L, en.time = 3) ∧
      (∀ en ∈ initAvail 10, en.time = 1 ∨ en.time = 3 →
        ∃ en2 ∈ L, en2.time = en.time ∧ en2.num_units = en.num_units + 1) ∧
      (∀ en ∈ L, en.time < 1 ∨ 3 ≤ en.time →
        en.resources = availAt (initAvail 10) en.time) :=
  c4_allocate_slot_effect (initAvail 10) (rng 0 2) 1 3
    (by decide) (by decide) (by decide) (by decide)

/-- C5: on the capacity-4 profile with `{2,3}` allocated over `[0,5)`,
`{1,3}` over `[5,10)`, `{0,1}` over `[10,15)` and `{1,3}` over `[15,20)`,
`time_slots(0, 17)` emits the two distinct slots `(0,10,{0})` and
`(0,5,{0})` — the same start time 0 and the non-disjoint resource set `{0}`
in both — because the while loop re-reads `entry = profile[slot_end_idx]`
after the subtraction pass instead of keeping the anchor entry, so identifier
0 is re-reported for the same anchor, contradicting the claim (and, on the
repository's own test scenario, producing 3 slots where `test_time_slots`
expects 4). -/
theorem c5_time_slots_same_start_overlap :
    profileScenarioTS.map (fun l => time_slots l 0 17) =
      some (some [⟨⟨0, 10⟩, some {0}⟩, ⟨⟨0, 17⟩, some {2}⟩, ⟨⟨0, 5⟩, some {0}⟩,
        ⟨⟨10, 15⟩, some {3}⟩]) ∧
    (⟨⟨0, 10⟩, some {0}⟩ : TimeSlot) ≠ ⟨⟨0, 5⟩, some {0}⟩ ∧
    ¬ (({0} : Finset Int) ∩ {0} = ∅) := by decide

/-- C6: `select_resources` (modelled from spec section 4.7) fails on `⊥` and
on sets of measure `< Q` and otherwise picks exactly `Q` identifiers, but the
round trip of law L3 breaks on the code: after allocating `{[0,8)}` over
`[5,10)` on capacity 10, `check_availability(5, 5, 5).resources` is the
non-`⊥` set `{[8,10)}` of measure 2, so `select_resources(…, 5)` raises
InsufficientResources instead of yielding a set of measure 5. -/
theorem c6_select_after_check_raises :
    profileScenario4.map
        (fun l => (check_availability l 5 5 5).map
          fun slot => (slot.resources, select_resources slot.resources 5)) =
      some (some (some (rng 8 10), none)) ∧
    select_resources none 5 = none ∧
    select_resources (some (rng 0 10)) 5 = some ({0, 1, 2, 3, 4} : Finset Int) ∧
    (({0, 1, 2, 3, 4} : Finset Int) ⊆ rng 0 10 ∧ ({0, 1, 2, 3, 4} : Finset Int).card = 5) := by
  decide

/-- C7: for every resource set and every window with `end ≤ start`, the
public mutator `allocate_resources` (modelled from spec sections 6 and 7;
absent from src/) raises InvalidWindow eagerly and the timeline is completely
unchanged. -/
theorem c7_invalid_window_all_or_nothing (avail : List ProfileEntry) (X : Finset Int)
    (s e : Int) (h : e ≤ s) :
    allocate_resources avail X s e = .error .invalidWindow ∧
    allocPost avail X s e = avail := by
  constructor
  · rw [allocate_resources, if_pos h]
  · rw [allocPost, allocate_resources, if_pos h]

/-- C7 witness: the degenerate window `[5, 5)` on the fresh profile. -/
theorem c7_invalid_window_all_or_nothing_witness :
    allocate_resources (initAvail 10) (rng 0 2) 5 5 = .error .invalidWindow ∧
    allocPost (initAvail 10) (rng 0 2) 5 5 = initAvail 10 :=
  c7_invalid_window_all_or_nothing (initAvail 10) (rng 0 2) 5 5 le_rfl

/-- C8: the timeline is non-empty and strictly increasing in time after
construction and after every public operation: the queries return it
unchanged, `allocate_resources` either raises (leaving it unchanged) or
rebuilds it sorted with the two boundary entries inserted at their positions,
and `remove_past_entries` drops a strict prefix of a non-empty suffix. -/
theorem c8_timeline_invariant :
    (∀ cap : Int, profileInv (initAvail cap)) ∧
    (∀ avail X s e, profileInv avail → profileInv (allocPost avail X s e)) ∧
    (∀ avail t, profileInv avail → profileInv (remove_past_entries avail t)) ∧
    (∀ avail q s d, profileInv avail → profileInv (check_availabilityM avail q s d).2) ∧
    (∀ avail q r d, profileInv avail → profileInv (find_start_timeM avail q r d).2) ∧
    (∀ avail s e, profileInv avail → profileInv (time_slotsM avail s e).2) ∧
    (∀ avail s e md mq, profileInv avail →
      profileInv (scheduling_optionsM avail s e md mq).2) := by
  refine ⟨?_, ?_, ?_, fun _ _ _ _ h => h, fun _ _ _ _ h => h, fun _ _ _ h => h,
    fun _ _ _ _ _ h => h⟩
  · intro cap
    exact ⟨List.cons_ne_nil _ _, List.pairwise_singleton _ _⟩
  · intro avail X s e hinv
    rw [allocPost]
    by_cases he : e ≤ s
    · rw [allocate_resources, if_pos he]
      exact hinv
    · rw [allocate_resources, if_neg he]
      cases h2 : allocate_slot avail X s e with
      | none => exact hinv
      | some L =>
        cases h3 : findLESplit avail s with
        | none => rw [allocate_slot, h3] at h2; cases h2
        | some v =>
          obtain ⟨pre, a, suf⟩ := v
          obtain ⟨L2, hL2, hne, hsorted, _⟩ :=
            allocate_slot_spec avail X s e pre a suf hinv.2 h3 (not_le.mp he)
          rw [h2] at hL2
          obtain rfl : L = L2 := Option.some_injective _ hL2
          exact ⟨hne, hsorted⟩
  · intro avail t hinv
    rw [remove_past_entries]
    by_cases hk : 2 ≤ bisectRight avail t
    · rw [if_pos hk]
      constructor
      · have hkle := bisectRight_le_length avail t
        have hlen : bisectRight avail t - 1 < avail.length := by omega
        have : 0 < (avail.drop (bisectRight avail t - 1)).length := by
          rw [List.length_drop]; omega
        exact List.ne_nil_of_length_pos this
      · exact hinv.2.sublist (List.drop_sublist _ _)
    · rw [if_neg hk]
      exact hinv

/-- C8 witness: the invariant after a concrete allocation on the fresh
capacity-10 profile. -/
theorem c8_timeline_invariant_witness :
    profileInv (allocPost (initAvail 10) (rng 0 3) 1 4) :=
  c8_timeline_invariant.2.1 (initAvail 10) (rng 0 3) 1 4 ⟨by decide, by decide⟩

/-- C9: the four query operations are read-only — in the state-passing
embedding each returns the timeline exactly as it received it; the source
counterparts never assign to `self._avail` and mutate only local clones. -/
theorem c9_queries_read_only (avail : List ProfileEntry) (q s d r e md mq : Int) :
    (check_availabilityM avail q s d).2 = avail ∧
    (find_start_timeM avail q r d).2 = avail ∧
    (time_slotsM avail s e).2 = avail ∧
    (scheduling_optionsM avail s e md mq).2 = avail :=
  ⟨rfl, rfl, rfl, rfl⟩

/-- C10: `allocate_slot` performs no defensive freeness check: for every
resource set `X` and sorted timeline with an anchor at or before
`start < end`, the call returns normally (no CapacityExceeded — the public
wrapper reports success) and subtracts `X` from every entry in the window
even when `X` overlaps identifiers already allocated there. -/
theorem c10_no_defensive_check (avail : List ProfileEntry) (X : Finset Int) (s e : Int)
    (hsort : timesSorted avail) (hfind : (findLESplit avail s).isSome) (hse : s < e) :
    ∃ L, allocate_slot avail X s e = some L ∧
      allocate_resources avail X s e = .ok L ∧
      (∀ en ∈ L, s ≤ en.time → en.time < e → en.resources = availAt avail en.time \ X) := by
  cases h2 : findLESplit avail s with
  | none => rw [h2] at hfind; cases hfind
  | some v =>
    obtain ⟨pre, a, suf⟩ := v
    obtain ⟨L, hL, _, _, hwin, _⟩ :=
      allocate_slot_spec avail X s e pre a suf hsort h2 hse
    refine ⟨L, hL, ?_, hwin⟩
    rw [allocate_resources, if_neg (not_le.mpr hse), hL]

/-- C10 witness: re-allocating the already-busy `{[0,8)}` over `[5,10)` on
the profile that has `{[0,8)}` allocated over `[5,10)` still succeeds and
subtracts it again. -/
theorem c10_no_defensive_check_witness :
    ∃ L, allocate_slot [⟨0, rng 0 10, 1⟩, ⟨5, rng 8 10, 1⟩, ⟨10, rng 0 10, 1⟩]
        (rng 0 8) 5 10 = some L ∧
      allocate_resources [⟨0, rng 0 10, 1⟩, ⟨5, rng 8 10, 1⟩, ⟨10, rng 0 10, 1⟩]
        (rng 0 8) 5 10 = .ok L ∧
      (∀ en ∈ L, 5 ≤ en.time → en.time < 10 →
        en.resources =
          availAt [⟨0, rng 0 10, 1⟩, ⟨5, rng 8 10, 1⟩, ⟨10, rng 0 10, 1⟩] en.time \ rng 0 8) :=
  c10_no_defensive_check [⟨0, rng 0 10, 1⟩, ⟨5, rng 8 10, 1⟩, ⟨10, rng 0 10, 1⟩]
    (rng 0 8) 5 10 (by decide) (by decide) (by decide)
